import Mathlib

/-!
Verification of the cascade-simulation / Monte-Carlo core of `fair.sol`
(`src/simulation/src/cascade.rs`, `src/simulation/src/monte_carlo.rs`).

Shallow embedding conventions:
- `f64` values are modelled as exact rationals `ℚ` (decimal literals of the
  source become the corresponding rationals, e.g. `0.13 = 13/100`).
- `f64::INFINITY` (the `debt == 0` branch of `collateral_ratio`) is modelled
  with `WithTop ℚ`, whose `⊤` compares exactly like the IEEE infinity against
  finite values.
- Transcendental helpers of the source (`E.powf`, `f64::sqrt`) have no exact
  rational counterpart; they are passed as explicit function parameters of the
  embedding and every theorem quantifies over them.
- The random source (`impl Rng`) is modelled as explicit streams of the drawn
  values, threaded through the state exactly at the call sites where the
  source samples.
-/

/- Constants of `cascade.rs` (lines 22-30). -/

def NUM_CDPS : ℕ := 500
def NUM_KEEPERS : ℕ := 50
def INITIAL_ETH_PRICE : ℚ := 2000
def LIQUIDATION_PENALTY : ℚ := 13/100
def minCollateralRatio : ℚ := 3/2
def LIQUIDATIONS_PER_BLOCK : ℕ := 10
def MAX_BLOCKS : ℕ := 100
def PRICE_IMPACT_PER_ETH : ℚ := 1/10000

/- `LiquidationMechanism` (cascade.rs lines 32-36). -/

inductive LiquidationMechanism where
  | Traditional
  | KeeperPool
deriving DecidableEq, Repr

/- `CDP` (cascade.rs lines 79-129). -/

structure CDP where
  id : ℕ
  collateral : ℚ
  debt : ℚ
  is_liquidated : Bool
deriving DecidableEq, Repr

instance : Inhabited CDP := ⟨⟨0, 0, 0, false⟩⟩

/-- Source `CDP::collateral_ratio` (cascade.rs lines 101-106): `f64::INFINITY` on
zero debt is modelled as `⊤ : WithTop ℚ`. -/
def CDP.collateral_ratio (cdp : CDP) (eth_price : ℚ) : WithTop ℚ :=
  if cdp.debt = 0 then ⊤
  else ((cdp.collateral * eth_price) / cdp.debt : ℚ)

/-- Source `CDP::is_underwater` (cascade.rs lines 108-110). -/
def CDP.is_underwater (cdp : CDP) (eth_price : ℚ) : Bool :=
  decide (cdp.collateral_ratio eth_price < (1 : ℚ))

/-- Source `CDP::is_liquidatable` (cascade.rs lines 112-114). -/
def CDP.is_liquidatable (cdp : CDP) (eth_price : ℚ) : Bool :=
  !cdp.is_liquidated && decide (cdp.collateral_ratio eth_price < (minCollateralRatio : ℚ))

/-- Source `CDP::liquidation_profit` (cascade.rs lines 116-120). -/
def CDP.liquidation_profit (cdp : CDP) (eth_price : ℚ) : ℚ :=
  max ((cdp.collateral * eth_price - cdp.debt) * LIQUIDATION_PENALTY) 0

/-- Source `CDP::bad_debt` (cascade.rs lines 122-128). -/
def CDP.bad_debt (cdp : CDP) (eth_price : ℚ) : ℚ :=
  if cdp.is_underwater eth_price && !cdp.is_liquidated then
    max (cdp.debt - cdp.collateral * eth_price) 0
  else 0

/- `Keeper` (cascade.rs lines 131-161). -/

structure Keeper where
  id : ℕ
  capital : ℚ
  gas_priority : ℚ
  total_profit : ℚ
  liquidations : ℕ
deriving DecidableEq, Repr

instance : Inhabited Keeper := ⟨⟨0, 0, 0, 0, 0⟩⟩

/-- Source `Keeper::willing_to_liquidate` (cascade.rs lines 151-160).  The keeper's
own state is not consulted, only the profit and the mechanism. -/
def Keeper.willing_to_liquidate (_k : Keeper) (profit : ℚ)
    (mechanism : LiquidationMechanism) : Bool :=
  match mechanism with
  | .Traditional => decide (50 < profit)
  | .KeeperPool => decide (10 < profit)

/- ================== C7 ================== -/

/-- C7 (amended): collateral ratio is monotone in price (for the nonnegative
collateral / debt produced by `CDP::new`), and an underwater position that is
not already liquidated is liquidatable. -/
theorem collateral_ratio_mono_and_underwater_liquidatable
    (cdp : CDP) (p q : ℚ) (hc : 0 ≤ cdp.collateral) (hd : 0 ≤ cdp.debt)
    (hpq : p ≤ q) :
    cdp.collateral_ratio p ≤ cdp.collateral_ratio q ∧
      (∀ r : ℚ, cdp.is_underwater r = true → cdp.is_liquidated = false →
        cdp.is_liquidatable r = true) := by
  constructor
  · unfold CDP.collateral_ratio
    by_cases h0 : cdp.debt = 0
    · simp [h0]
    · have hdpos : 0 < cdp.debt := lt_of_le_of_ne hd (Ne.symm h0)
      simp only [h0, if_false]
      rw [WithTop.coe_le_coe]
      exact (div_le_div_iff_of_pos_right hdpos).mpr (mul_le_mul_of_nonneg_left hpq hc)
  · intro r hu hl
    unfold CDP.is_underwater at hu
    unfold CDP.is_liquidatable
    have h1 : cdp.collateral_ratio r < (1 : ℚ) := of_decide_eq_true hu
    have h2 : cdp.collateral_ratio r < (minCollateralRatio : ℚ) := by
      refine lt_trans h1 ?_
      rw [WithTop.coe_lt_coe]
      norm_num [minCollateralRatio]
    simp [hl, h2]

/-- C7 witness: concrete instantiation of the amended theorem. -/
theorem collateral_ratio_mono_witness :
    (0 : ℚ) ≤ 10 ∧ (0 : ℚ) ≤ 10000 ∧ (1000 : ℚ) ≤ 2000 ∧
      ((⟨0, 10, 10000, false⟩ : CDP).collateral_ratio 1000 ≤
        (⟨0, 10, 10000, false⟩ : CDP).collateral_ratio 2000 ∧
      (∀ r : ℚ, (⟨0, 10, 10000, false⟩ : CDP).is_underwater r = true →
        (⟨0, 10, 10000, false⟩ : CDP).is_liquidated = false →
        (⟨0, 10, 10000, false⟩ : CDP).is_liquidatable r = true)) :=
  ⟨by norm_num, by norm_num, by norm_num,
    collateral_ratio_mono_and_underwater_liquidatable ⟨0, 10, 10000, false⟩
      1000 2000 (by norm_num) (by norm_num) (by norm_num)⟩

/-- C7 counterexample: a position that has already been liquidated can be
underwater without being liquidatable, so underwater does not imply
liquidatable for every `CDP`. -/
theorem underwater_not_liquidatable_counterexample :
    (⟨0, 1, 4000, true⟩ : CDP).is_underwater 2000 = true ∧
      (⟨0, 1, 4000, true⟩ : CDP).is_liquidatable 2000 = false := by
  constructor
  · simp only [CDP.is_underwater, CDP.collateral_ratio, decide_eq_true_eq]
    norm_num
  · simp [CDP.is_liquidatable]

/- `percentile` / `expected_shortfall` (monte_carlo.rs lines 223-241). -/

/-- Rust `f64::round` (round half away from zero), on exact rationals. -/
def rustRound (q : ℚ) : ℤ :=
  if 0 ≤ q then ⌊q + 1/2⌋ else ⌈q - 1/2⌉

/-- Source `percentile` (monte_carlo.rs lines 223-229).  The `as usize` cast of the
nonnegative rounded rank is `Int.toNat` (Rust casts saturate at zero). -/
def percentile (sorted : List ℚ) (p : ℚ) : ℚ :=
  if sorted.isEmpty then 0
  else
    let idx := (rustRound (((sorted.length : ℚ) - 1) * p)).toNat
    sorted.getD (min idx (sorted.length - 1)) 0

/-- Source `expected_shortfall` (monte_carlo.rs lines 231-241). -/
def expected_shortfall (sorted : List ℚ) (p : ℚ) : ℚ :=
  if sorted.isEmpty then 0
  else
    let cutoff_idx := (⌈(sorted.length : ℚ) * p⌉).toNat
    let tail := sorted.drop cutoff_idx
    if tail.isEmpty then sorted.getLastD 0
    else tail.sum / (tail.length : ℚ)

/- ================== C5 ================== -/

/-- C5: on the empty list both statistics return 0; on a non-empty
ascending-sorted list, VaR is the element at rank `round((n-1)p)` clamped to a
valid index, and CVaR is the mean of the elements at or beyond rank
`ceil(n*p)`, falling back to the single worst (last) value when that tail is
empty. -/
theorem percentile_shortfall_spec (sorted : List ℚ) (p : ℚ) :
    percentile [] p = 0 ∧ expected_shortfall [] p = 0 ∧
    (sorted ≠ [] →
      percentile sorted p =
        sorted.getD
          (min (rustRound (((sorted.length : ℚ) - 1) * p)).toNat
            (sorted.length - 1)) 0) ∧
    (sorted ≠ [] →
      expected_shortfall sorted p =
        if (sorted.drop (⌈(sorted.length : ℚ) * p⌉).toNat).isEmpty then
          sorted.getLastD 0
        else (sorted.drop (⌈(sorted.length : ℚ) * p⌉).toNat).sum /
          ((sorted.drop (⌈(sorted.length : ℚ) * p⌉).toNat).length : ℚ)) := by
  refine ⟨by simp [percentile], by simp [expected_shortfall], ?_, ?_⟩
  · intro h
    simp [percentile, h]
  · intro h
    simp only [expected_shortfall, List.isEmpty_eq_false.mpr h, Bool.false_eq_true,
      if_false]

/-- C5 witness: concrete instantiation. -/
theorem percentile_shortfall_spec_witness :
    ([(1 : ℚ), 2, 3] ≠ []) ∧
      (percentile [] (1/2) = 0 ∧ expected_shortfall [] (1/2) = 0 ∧
      ([(1 : ℚ), 2, 3] ≠ [] →
        percentile [(1 : ℚ), 2, 3] (1/2) =
          [(1 : ℚ), 2, 3].getD
            (min (rustRound ((([(1 : ℚ), 2, 3].length : ℚ) - 1) * (1/2))).toNat
              ([(1 : ℚ), 2, 3].length - 1)) 0) ∧
      ([(1 : ℚ), 2, 3] ≠ [] →
        expected_shortfall [(1 : ℚ), 2, 3] (1/2) =
          if ([(1 : ℚ), 2, 3].drop (⌈(([(1 : ℚ), 2, 3].length : ℚ)) * (1/2)⌉).toNat).isEmpty then
            [(1 : ℚ), 2, 3].getLastD 0
          else ([(1 : ℚ), 2, 3].drop (⌈(([(1 : ℚ), 2, 3].length : ℚ)) * (1/2)⌉).toNat).sum /
            (([(1 : ℚ), 2, 3].drop (⌈(([(1 : ℚ), 2, 3].length : ℚ)) * (1/2)⌉).toNat).length : ℚ))) :=
  ⟨by simp, percentile_shortfall_spec [(1 : ℚ), 2, 3] (1/2)⟩

/- Helper lemmas for C6. -/

theorem getD_eq_getElem_of_lt (l : List ℚ) (n : ℕ) (h : n < l.length) :
    l.getD n 0 = l[n] := by
  simp [List.getD_eq_getElem?_getD, List.getElem?_eq_getElem h]

theorem sorted_getD_le (l : List ℚ) (hs : l.Sorted (· ≤ ·)) (i j : ℕ)
    (hij : i ≤ j) (hj : j < l.length) : l.getD i 0 ≤ l.getD j 0 := by
  have hi : i < l.length := lt_of_le_of_lt hij hj
  rw [getD_eq_getElem_of_lt l i hi, getD_eq_getElem_of_lt l j hj]
  have := hs.rel_get_of_le (a := ⟨i, hi⟩) (b := ⟨j, hj⟩) (Fin.mk_le_mk.mpr hij)
  simpa [List.get_eq_getElem] using this

theorem length_mul_le_sum (t : List ℚ) (v : ℚ) (h : ∀ x ∈ t, v ≤ x) :
    (t.length : ℚ) * v ≤ t.sum := by
  induction t with
  | nil => simp
  | cons a t ih =>
    have ha : v ≤ a := h a (List.mem_cons_self a t)
    have ht : (t.length : ℚ) * v ≤ t.sum := ih fun x hx => h x (List.mem_cons_of_mem a hx)
    simp only [List.length_cons, List.sum_cons]
    push_cast
    linarith

theorem floor_half_le_ceil (z : ℚ) : ⌊z + 1/2⌋ ≤ ⌈z⌉ := by
  have h1 : (⌊z + 1/2⌋ : ℚ) ≤ z + 1/2 := Int.floor_le _
  have h2 : z ≤ (⌈z⌉ : ℚ) := Int.le_ceil _
  have : (⌊z + 1/2⌋ : ℚ) < (⌈z⌉ : ℚ) + 1 := by linarith
  exact_mod_cast Int.lt_add_one_iff.mp (by exact_mod_cast this)

/-- The VaR rank never exceeds the CVaR cutoff rank. -/
theorem varRank_le_cutoff (n : ℕ) (p : ℚ) (hn : 1 ≤ n) (hp : 0 ≤ p) :
    (rustRound (((n : ℚ) - 1) * p)).toNat ≤ (⌈(n : ℚ) * p⌉).toNat := by
  have hx : (0 : ℚ) ≤ ((n : ℚ) - 1) * p := by
    apply mul_nonneg _ hp
    have : (1 : ℚ) ≤ (n : ℚ) := by exact_mod_cast hn
    linarith
  rw [rustRound, if_pos hx]
  apply Int.toNat_le_toNat
  calc ⌊((n : ℚ) - 1) * p + 1/2⌋ ≤ ⌊(n : ℚ) * p + 1/2⌋ := by
        apply Int.floor_le_floor
        have : ((n : ℚ) - 1) * p ≤ (n : ℚ) * p := by nlinarith
        linarith
    _ ≤ ⌈(n : ℚ) * p⌉ := floor_half_le_ceil _

/- ================== C6 ================== -/

/-- C6: on a non-empty ascending-sorted list, VaR is monotone in the
confidence level, and CVaR dominates VaR at the same confidence (the
degenerate empty-tail fallback included). -/
theorem percentile_mono_and_shortfall_dominates (l : List ℚ) (p q : ℚ)
    (hne : l ≠ []) (hs : l.Sorted (· ≤ ·)) (hp : 0 ≤ p) (hpq : p ≤ q)
    (_hq : q ≤ 1) :
    percentile l p ≤ percentile l q ∧ percentile l p ≤ expected_shortfall l p := by
  have hemp : l.isEmpty = false := List.isEmpty_eq_false.mpr hne
  have hn : 1 ≤ l.length := List.length_pos.mpr hne
  have hlast : l.length - 1 < l.length := by omega
  have hnneg : (0 : ℚ) ≤ ((l.length : ℚ) - 1) :=  by
    have : (1 : ℚ) ≤ (l.length : ℚ) := by exact_mod_cast hn
    linarith
  constructor
  · -- monotonicity in the confidence level
    simp only [percentile, hemp, Bool.false_eq_true, if_false]
    apply sorted_getD_le l hs _ _ _ (lt_of_le_of_lt (min_le_right _ _) hlast)
    apply min_le_min _ le_rfl
    have hxp : (0 : ℚ) ≤ ((l.length : ℚ) - 1) * p := mul_nonneg hnneg hp
    have hxq : (0 : ℚ) ≤ ((l.length : ℚ) - 1) * q := mul_nonneg hnneg (le_trans hp hpq)
    rw [rustRound, if_pos hxp, rustRound, if_pos hxq]
    apply Int.toNat_le_toNat
    apply Int.floor_le_floor
    have : ((l.length : ℚ) - 1) * p ≤ ((l.length : ℚ) - 1) * q :=
      mul_le_mul_of_nonneg_left hpq hnneg
    linarith
  · -- CVaR dominates VaR
    simp only [percentile, expected_shortfall, hemp, Bool.false_eq_true, if_false]
    set cutoff := (⌈(l.length : ℚ) * p⌉).toNat with hcut
    set vidx := min (rustRound (((l.length : ℚ) - 1) * p)).toNat (l.length - 1) with hvidx
    have hvid : vidx ≤ cutoff :=
      le_trans (min_le_left _ _) (varRank_le_cutoff l.length p hn hp)
    by_cases htail : (l.drop cutoff).isEmpty
    · -- empty tail: fall back to the last (largest) element
      simp only [htail, if_true]
      have : l.getLastD 0 = l.getD (l.length - 1) 0 := by
        rw [getD_eq_getElem_of_lt l _ hlast]
        rw [List.getLastD_eq_getLast?, List.getLast?_eq_getLast l hne,
          Option.getD_some, List.getLast_eq_getElem]
      rw [this]
      exact sorted_getD_le l hs _ _ (min_le_right _ _) hlast
    · -- non-empty tail: the mean of the tail dominates the VaR entry
      simp only [htail, Bool.false_eq_true, if_false]
      have htail' : l.drop cutoff ≠ [] := fun h => by simp [h] at htail
      have htlen : 0 < (l.drop cutoff).length := List.length_pos.mpr htail'
      have hcl : cutoff < l.length := by
        by_contra hge
        exact htail' (List.drop_eq_nil_of_le (by omega))
      have hall : ∀ x ∈ l.drop cutoff, l.getD vidx 0 ≤ x := by
        intro x hx
        obtain ⟨k, hk, rfl⟩ := List.getElem_of_mem hx
        rw [List.getElem_drop]
        rw [← getD_eq_getElem_of_lt l (cutoff + k) (by
          have := (List.length_drop cutoff l) ▸ hk
          omega)]
        apply sorted_getD_le l hs _ _ (by omega)
        have := (List.length_drop cutoff l) ▸ hk
        omega
      have hsum : ((l.drop cutoff).length : ℚ) * l.getD vidx 0 ≤ (l.drop cutoff).sum :=
        length_mul_le_sum _ _ hall
      rw [le_div_iff₀ (by exact_mod_cast htlen)]
      linarith

/-- C6 witness: concrete instantiation. -/
theorem percentile_mono_witness :
    ([(1 : ℚ), 2, 3] ≠ [] ∧ [(1 : ℚ), 2, 3].Sorted (· ≤ ·) ∧
      (0 : ℚ) ≤ 1/2 ∧ (1/2 : ℚ) ≤ 3/4 ∧ (3/4 : ℚ) ≤ 1) ∧
    (percentile [(1 : ℚ), 2, 3] (1/2) ≤ percentile [(1 : ℚ), 2, 3] (3/4) ∧
      percentile [(1 : ℚ), 2, 3] (1/2) ≤ expected_shortfall [(1 : ℚ), 2, 3] (1/2)) :=
  ⟨⟨by simp, by norm_num [List.Sorted], by norm_num, by norm_num, by norm_num⟩,
    percentile_mono_and_shortfall_dominates [(1 : ℚ), 2, 3] (1/2) (3/4)
      (by simp) (by norm_num [List.Sorted]) (by norm_num) (by norm_num) (by norm_num)⟩

/- Per-liquidation mechanism resolution (cascade.rs lines 256-293). -/

/-- The willing-keeper indices (cascade.rs lines 260-264):
`keepers.iter().enumerate().filter(|(_, k)| k.willing_to_liquidate(..)).map(|(i, _)| i)`. -/
def participatingKeepers (keepers : List Keeper) (profit : ℚ)
    (mechanism : LiquidationMechanism) : List ℕ :=
  (keepers.enum.filter
    (fun ik => ik.2.willing_to_liquidate profit mechanism)).map Prod.fst

/-- Rust `Iterator::max_by` (used at cascade.rs lines 272-278): of several
equally-maximal elements the last is returned, because the underlying fold
keeps the accumulator only when it compares strictly greater. -/
def rustMaxBy (key : ℕ → ℚ) : List ℕ → Option ℕ
  | [] => none
  | x :: xs => some (xs.foldl (fun acc y => if key y < key acc then acc else y) x)

/-- In-place update of a single list entry, `self.keepers[i].field += ...`. -/
def updateAt {α : Type} : List α → ℕ → (α → α) → List α
  | [], _, _ => []
  | a :: l, 0, f => f a :: l
  | a :: l, n + 1, f => a :: updateAt l n f

/-- The `Traditional` match arm (cascade.rs lines 271-282): the max-priority
willing keeper receives the full profit and the execution count.  The
`unwrap` of the source is total here because the arm only runs on a nonempty
participating set. -/
def execTraditional (keepers : List Keeper) (profit : ℚ)
    (participating : List ℕ) : List Keeper :=
  match rustMaxBy (fun i => (keepers.getD i default).gas_priority) participating with
  | none => keepers
  | some winner_idx =>
    updateAt keepers winner_idx (fun k =>
      { k with total_profit := k.total_profit + profit,
               liquidations := k.liquidations + 1 })

/-- The `KeeperPool` match arm (cascade.rs lines 283-293).  `sel` models the
`rng.gen_range(0..participating_keepers.len())` draw (any natural, reduced
into range). -/
def execKeeperPool (keepers : List Keeper) (profit : ℚ)
    (participating : List ℕ) (sel : ℕ) : List Keeper :=
  let keeper_share := profit * (7/10)
  let per_keeper := keeper_share / (participating.length : ℚ)
  let ks1 := participating.foldl
    (fun acc i => updateAt acc i (fun k =>
      { k with total_profit := k.total_profit + per_keeper })) keepers
  let winner_idx := participating.getD (sel % participating.length) 0
  updateAt ks1 winner_idx (fun k => { k with liquidations := k.liquidations + 1 })

/- Helper lemmas: `updateAt`. -/

theorem length_updateAt {α : Type} (l : List α) (i : ℕ) (f : α → α) :
    (updateAt l i f).length = l.length := by
  induction l generalizing i with
  | nil => rfl
  | cons a l ih =>
    cases i with
    | zero => rfl
    | succ n => simpa [updateAt] using ih n

theorem getD_updateAt_eq {α : Type} [Inhabited α] (l : List α) (i : ℕ)
    (f : α → α) (hi : i < l.length) :
    (updateAt l i f).getD i default = f (l.getD i default) := by
  induction l generalizing i with
  | nil => simp at hi
  | cons a l ih =>
    cases i with
    | zero => rfl
    | succ n => simpa [updateAt] using ih n (by simpa using hi)

theorem getD_updateAt_ne {α : Type} [Inhabited α] (l : List α) (i j : ℕ)
    (f : α → α) (hij : j ≠ i) :
    (updateAt l i f).getD j default = l.getD j default := by
  induction l generalizing i j with
  | nil => rfl
  | cons a l ih =>
    cases i with
    | zero =>
      cases j with
      | zero => exact absurd rfl hij
      | succ m => rfl
    | succ n =>
      cases j with
      | zero => rfl
      | succ m => simpa [updateAt] using ih n m (fun h => hij (by omega))

theorem map_updateAt_invariant {α β : Type} (l : List α) (i : ℕ) (f : α → α)
    (g : α → β) (hfg : ∀ a, g (f a) = g a) :
    (updateAt l i f).map g = l.map g := by
  induction l generalizing i with
  | nil => rfl
  | cons a l ih =>
    cases i with
    | zero => simp [updateAt, hfg]
    | succ n => simp [updateAt, ih n]

/- Helper lemmas: `participatingKeepers`. -/

theorem participating_sublist_range (ks : List Keeper) (profit : ℚ)
    (mech : LiquidationMechanism) :
    List.Sublist (participatingKeepers ks profit mech) (List.range ks.length) := by
  unfold participatingKeepers
  have h1 : List.Sublist
      ((ks.enum.filter
        (fun ik => ik.2.willing_to_liquidate profit mech)).map Prod.fst)
      (ks.enum.map Prod.fst) := (List.filter_sublist _).map _
  have h2 : ks.enum.map Prod.fst = List.range ks.length := by
    rw [List.enum_eq_enumFrom, List.enumFrom_map_fst, List.range_eq_range']
  rwa [h2] at h1

theorem participating_pairwise (ks : List Keeper) (profit : ℚ)
    (mech : LiquidationMechanism) :
    (participatingKeepers ks profit mech).Pairwise (· < ·) :=
  (List.pairwise_lt_range ks.length).sublist
    (participating_sublist_range ks profit mech)

theorem participating_mem_lt (ks : List Keeper) (profit : ℚ)
    (mech : LiquidationMechanism) {i : ℕ}
    (hi : i ∈ participatingKeepers ks profit mech) : i < ks.length :=
  List.mem_range.mp ((participating_sublist_range ks profit mech).mem hi)

/-- The willingness test ignores the keeper's own state, so the participating
set is either every keeper index or empty. -/
theorem participating_eq (ks : List Keeper) (profit : ℚ)
    (mech : LiquidationMechanism) :
    participatingKeepers ks profit mech =
      if (default : Keeper).willing_to_liquidate profit mech then
        List.range ks.length
      else [] := by
  unfold participatingKeepers
  have hpred : (fun ik : ℕ × Keeper => ik.2.willing_to_liquidate profit mech)
      = (fun _ : ℕ × Keeper => (default : Keeper).willing_to_liquidate profit mech) :=
    rfl
  rw [hpred]
  cases h : (default : Keeper).willing_to_liquidate profit mech with
  | true =>
    simp only [if_true, List.filter_true]
    rw [List.enum_eq_enumFrom, List.enumFrom_map_fst, List.range_eq_range']
  | false =>
    simp [List.filter_false]

/- Helper lemma: the fold underlying `rustMaxBy`. -/

theorem foldl_max_spec (key : ℕ → ℚ) (l : List ℕ) :
    ∀ acc : ℕ, List.Pairwise (· < ·) (acc :: l) →
      ((l.foldl (fun a y => if key y < key a then a else y) acc) = acc ∨
        (l.foldl (fun a y => if key y < key a then a else y) acc) ∈ l) ∧
      key acc ≤ key (l.foldl (fun a y => if key y < key a then a else y) acc) ∧
      (∀ y ∈ l, key y ≤ key (l.foldl (fun a y => if key y < key a then a else y) acc)) ∧
      (∀ y ∈ l, key y = key (l.foldl (fun a y => if key y < key a then a else y) acc) →
        y ≤ (l.foldl (fun a y => if key y < key a then a else y) acc)) ∧
      acc ≤ (l.foldl (fun a y => if key y < key a then a else y) acc) := by
  induction l with
  | nil => intro acc _; simp
  | cons b t ih =>
    intro acc hpw
    have hab : acc < b := (List.pairwise_cons.mp hpw).1 b (List.mem_cons_self b t)
    have htl : List.Pairwise (· < ·) (b :: t) := (List.pairwise_cons.mp hpw).2
    have hbt : ∀ y ∈ t, b < y := (List.pairwise_cons.mp htl).1
    have hat : ∀ y ∈ t, acc < y := fun y hy => lt_trans hab (hbt y hy)
    simp only [List.foldl_cons]
    by_cases hk : key b < key acc
    · simp only [if_pos hk]
      obtain ⟨hmem, hacc, hall, hlast, hle⟩ :=
        ih acc (List.pairwise_cons.mpr ⟨hat, (List.pairwise_cons.mp htl).2⟩)
      refine ⟨?_, hacc, ?_, ?_, hle⟩
      · rcases hmem with h | h
        · left; exact h
        · right; exact List.mem_cons_of_mem b h
      · intro y hy
        rcases List.mem_cons.mp hy with rfl | hyt
        · exact le_trans (le_of_lt hk) hacc
        · exact hall y hyt
      · intro y hy hkey
        rcases List.mem_cons.mp hy with rfl | hyt
        · exact absurd hkey (ne_of_lt (lt_of_lt_of_le hk hacc))
        · exact hlast y hyt hkey
    · simp only [if_neg hk]
      obtain ⟨hmem, hacc, hall, hlast, hle⟩ := ih b htl
      refine ⟨?_, le_trans (le_of_not_lt hk) hacc, ?_, ?_, ?_⟩
      · rcases hmem with h | h
        · right; rw [h]; exact List.mem_cons_self b t
        · right; exact List.mem_cons_of_mem b h
      · intro y hy
        rcases List.mem_cons.mp hy with rfl | hyt
        · exact hacc
        · exact hall y hyt
      · intro y hy hkey
        rcases List.mem_cons.mp hy with rfl | hyt
        · exact hle
        · exact hlast y hyt hkey
      · exact le_trans (le_of_lt hab) hle

/-- On a strictly-increasing index list `rustMaxBy` returns an element whose index list returns an element whose
key is maximal, and among the key-maximal elements the one occurring last
(the largest index). -/
theorem rustMaxBy_spec (key : ℕ → ℚ) (l : List ℕ)
    (hpw : l.Pairwise (· < ·)) (hne : l ≠ []) :
    ∃ r, rustMaxBy key l = some r ∧ r ∈ l ∧ (∀ y ∈ l, key y ≤ key r) ∧
      (∀ y ∈ l, key y = key r → y ≤ r) := by
  match l, hne with
  | x :: xs, _ =>
    obtain ⟨hmem, hacc, hall, hlast, hle⟩ := foldl_max_spec key xs x hpw
    refine ⟨_, rfl, ?_, ?_, ?_⟩
    · rcases hmem with h | h
      · rw [h]; exact List.mem_cons_self x xs
      · exact List.mem_cons_of_mem x h
    · intro y hy
      rcases List.mem_cons.mp hy with rfl | hyt
      · exact hacc
      · exact hall y hyt
    · intro y hy hkey
      rcases List.mem_cons.mp hy with rfl | hyt
      · exact hle
      · exact hlast y hyt hkey

/- ================== C4 ================== -/

/-- C4: under the Traditional mechanism an executed liquidation (one with a
non-empty willing set) pays the full computed profit to exactly one keeper —
a willing keeper of maximal gas priority, whose execution counter also
increments — while every other keeper is completely unchanged; execution
implies the profit exceeds the 50 threshold, so the winner's profit strictly
increases. -/
theorem execTraditional_spec (ks : List Keeper) (profit : ℚ)
    (hne : participatingKeepers ks profit LiquidationMechanism.Traditional ≠ []) :
    ∃ w ∈ participatingKeepers ks profit LiquidationMechanism.Traditional,
      50 < profit ∧
      ((execTraditional ks profit
          (participatingKeepers ks profit
            LiquidationMechanism.Traditional)).getD w default).total_profit
        = (ks.getD w default).total_profit + profit ∧
      ((execTraditional ks profit
          (participatingKeepers ks profit
            LiquidationMechanism.Traditional)).getD w default).liquidations
        = (ks.getD w default).liquidations + 1 ∧
      (∀ j, j ≠ w →
        (execTraditional ks profit
          (participatingKeepers ks profit
            LiquidationMechanism.Traditional)).getD j default
          = ks.getD j default) ∧
      (∀ j ∈ participatingKeepers ks profit LiquidationMechanism.Traditional,
        (ks.getD j default).gas_priority ≤ (ks.getD w default).gas_priority) := by
  obtain ⟨w, hmax, hwmem, hall, _⟩ :=
    rustMaxBy_spec (fun i => (ks.getD i default).gas_priority)
      (participatingKeepers ks profit LiquidationMechanism.Traditional)
      (participating_pairwise ks profit LiquidationMechanism.Traditional) hne
  have hwlt : w < ks.length :=
    participating_mem_lt ks profit LiquidationMechanism.Traditional hwmem
  have hprofit : 50 < profit := by
    have := participating_eq ks profit LiquidationMechanism.Traditional
    by_cases hw : (default : Keeper).willing_to_liquidate profit
        LiquidationMechanism.Traditional = true
    · exact of_decide_eq_true hw
    · rw [this, if_neg (by simpa using hw)] at hne
      exact absurd rfl hne
  refine ⟨w, hwmem, hprofit, ?_, ?_, ?_, hall⟩
  · unfold execTraditional
    rw [hmax, getD_updateAt_eq ks w _ hwlt]
  · unfold execTraditional
    rw [hmax, getD_updateAt_eq ks w _ hwlt]
  · intro j hj
    unfold execTraditional
    rw [hmax, getD_updateAt_ne ks w j _ hj]

/-- C4 witness: two keepers with distinct priorities, profit 100. -/
theorem execTraditional_spec_witness :
    (participatingKeepers [⟨0, 0, 1, 0, 0⟩, ⟨1, 0, 2, 0, 0⟩] 100
        LiquidationMechanism.Traditional ≠ []) ∧
    (∃ w ∈ participatingKeepers [⟨0, 0, 1, 0, 0⟩, ⟨1, 0, 2, 0, 0⟩] 100
        LiquidationMechanism.Traditional,
      (50 : ℚ) < 100 ∧
      ((execTraditional [⟨0, 0, 1, 0, 0⟩, ⟨1, 0, 2, 0, 0⟩] 100
          (participatingKeepers [⟨0, 0, 1, 0, 0⟩, ⟨1, 0, 2, 0, 0⟩] 100
            LiquidationMechanism.Traditional)).getD w default).total_profit
        = (([⟨0, 0, 1, 0, 0⟩, ⟨1, 0, 2, 0, 0⟩] :
            List Keeper).getD w default).total_profit + 100 ∧
      ((execTraditional [⟨0, 0, 1, 0, 0⟩, ⟨1, 0, 2, 0, 0⟩] 100
          (participatingKeepers [⟨0, 0, 1, 0, 0⟩, ⟨1, 0, 2, 0, 0⟩] 100
            LiquidationMechanism.Traditional)).getD w default).liquidations
        = (([⟨0, 0, 1, 0, 0⟩, ⟨1, 0, 2, 0, 0⟩] :
            List Keeper).getD w default).liquidations + 1 ∧
      (∀ j, j ≠ w →
        (execTraditional [⟨0, 0, 1, 0, 0⟩, ⟨1, 0, 2, 0, 0⟩] 100
          (participatingKeepers [⟨0, 0, 1, 0, 0⟩, ⟨1, 0, 2, 0, 0⟩] 100
            LiquidationMechanism.Traditional)).getD j default
          = ([⟨0, 0, 1, 0, 0⟩, ⟨1, 0, 2, 0, 0⟩] : List Keeper).getD j default) ∧
      (∀ j ∈ participatingKeepers [⟨0, 0, 1, 0, 0⟩, ⟨1, 0, 2, 0, 0⟩] 100
          LiquidationMechanism.Traditional,
        (([⟨0, 0, 1, 0, 0⟩, ⟨1, 0, 2, 0, 0⟩] :
            List Keeper).getD j default).gas_priority ≤
          (([⟨0, 0, 1, 0, 0⟩, ⟨1, 0, 2, 0, 0⟩] :
            List Keeper).getD w default).gas_priority)) :=
  ⟨by decide, execTraditional_spec [⟨0, 0, 1, 0, 0⟩, ⟨1, 0, 2, 0, 0⟩] 100 (by decide)⟩

/- ================== C10 ================== -/

/-- C10: under the Traditional mechanism, when several willing keepers tie at
the maximal gas-priority score, the winner (who receives the profit and the
execution count) is the tied keeper occurring last — the highest index — in
the keeper list: Rust `max_by` keeps the later element on ties. -/
theorem execTraditional_tiebreak (ks : List Keeper) (profit : ℚ)
    (hne : participatingKeepers ks profit LiquidationMechanism.Traditional ≠ []) :
    ∃ w ∈ participatingKeepers ks profit LiquidationMechanism.Traditional,
      rustMaxBy (fun i => (ks.getD i default).gas_priority)
        (participatingKeepers ks profit LiquidationMechanism.Traditional)
        = some w ∧
      (∀ j ∈ participatingKeepers ks profit LiquidationMechanism.Traditional,
        (ks.getD j default).gas_priority = (ks.getD w default).gas_priority →
          j ≤ w) ∧
      ((execTraditional ks profit
          (participatingKeepers ks profit
            LiquidationMechanism.Traditional)).getD w default).total_profit
        = (ks.getD w default).total_profit + profit ∧
      ((execTraditional ks profit
          (participatingKeepers ks profit
            LiquidationMechanism.Traditional)).getD w default).liquidations
        = (ks.getD w default).liquidations + 1 := by
  obtain ⟨w, hmax, hwmem, _, hlast⟩ :=
    rustMaxBy_spec (fun i => (ks.getD i default).gas_priority)
      (participatingKeepers ks profit LiquidationMechanism.Traditional)
      (participating_pairwise ks profit LiquidationMechanism.Traditional) hne
  have hwlt : w < ks.length :=
    participating_mem_lt ks profit LiquidationMechanism.Traditional hwmem
  refine ⟨w, hwmem, hmax, hlast, ?_, ?_⟩
  · unfold execTraditional
    rw [hmax, getD_updateAt_eq ks w _ hwlt]
  · unfold execTraditional
    rw [hmax, getD_updateAt_eq ks w _ hwlt]

/-- C10 witness: two keepers tied at priority 1; the later index wins. -/
theorem execTraditional_tiebreak_witness :
    (participatingKeepers [⟨0, 0, 1, 0, 0⟩, ⟨1, 0, 1, 0, 0⟩] 100
        LiquidationMechanism.Traditional ≠ []) ∧
    (∃ w ∈ participatingKeepers [⟨0, 0, 1, 0, 0⟩, ⟨1, 0, 1, 0, 0⟩] 100
        LiquidationMechanism.Traditional,
      rustMaxBy (fun i => (([⟨0, 0, 1, 0, 0⟩, ⟨1, 0, 1, 0, 0⟩] :
          List Keeper).getD i default).gas_priority)
        (participatingKeepers [⟨0, 0, 1, 0, 0⟩, ⟨1, 0, 1, 0, 0⟩] 100
          LiquidationMechanism.Traditional)
        = some w ∧
      (∀ j ∈ participatingKeepers [⟨0, 0, 1, 0, 0⟩, ⟨1, 0, 1, 0, 0⟩] 100
          LiquidationMechanism.Traditional,
        (([⟨0, 0, 1, 0, 0⟩, ⟨1, 0, 1, 0, 0⟩] :
            List Keeper).getD j default).gas_priority =
          (([⟨0, 0, 1, 0, 0⟩, ⟨1, 0, 1, 0, 0⟩] :
            List Keeper).getD w default).gas_priority → j ≤ w) ∧
      ((execTraditional [⟨0, 0, 1, 0, 0⟩, ⟨1, 0, 1, 0, 0⟩] 100
          (participatingKeepers [⟨0, 0, 1, 0, 0⟩, ⟨1, 0, 1, 0, 0⟩] 100
            LiquidationMechanism.Traditional)).getD w default).total_profit
        = (([⟨0, 0, 1, 0, 0⟩, ⟨1, 0, 1, 0, 0⟩] :
            List Keeper).getD w default).total_profit + 100 ∧
      ((execTraditional [⟨0, 0, 1, 0, 0⟩, ⟨1, 0, 1, 0, 0⟩] 100
          (participatingKeepers [⟨0, 0, 1, 0, 0⟩, ⟨1, 0, 1, 0, 0⟩] 100
            LiquidationMechanism.Traditional)).getD w default).liquidations
        = (([⟨0, 0, 1, 0, 0⟩, ⟨1, 0, 1, 0, 0⟩] :
            List Keeper).getD w default).liquidations + 1) :=
  ⟨by decide,
    execTraditional_tiebreak [⟨0, 0, 1, 0, 0⟩, ⟨1, 0, 1, 0, 0⟩] 100 (by decide)⟩

/- Helper lemmas: folding per-keeper profit updates over the willing set. -/

theorem length_foldl_updateAt (g : Keeper → Keeper) (part : List ℕ) :
    ∀ ks : List Keeper,
      (part.foldl (fun acc i => updateAt acc i g) ks).length = ks.length := by
  induction part with
  | nil => intro ks; rfl
  | cons i rest ih =>
    intro ks
    simp only [List.foldl_cons]
    rw [ih, length_updateAt]

theorem getD_foldl_updateAt_not_mem (g : Keeper → Keeper) (part : List ℕ) :
    ∀ (ks : List Keeper) (j : ℕ), j ∉ part →
      (part.foldl (fun acc i => updateAt acc i g) ks).getD j default
        = ks.getD j default := by
  induction part with
  | nil => intro ks j _; rfl
  | cons i rest ih =>
    intro ks j hj
    simp only [List.foldl_cons]
    rw [ih _ j (fun h => hj (List.mem_cons_of_mem i h)),
      getD_updateAt_ne ks i j g (fun h => hj (h ▸ List.mem_cons_self i rest))]

theorem getD_foldl_updateAt_mem (g : Keeper → Keeper) (part : List ℕ) :
    ∀ (ks : List Keeper) (j : ℕ), part.Pairwise (· < ·) →
      (∀ i ∈ part, i < ks.length) → j ∈ part →
      (part.foldl (fun acc i => updateAt acc i g) ks).getD j default
        = g (ks.getD j default) := by
  induction part with
  | nil => intro ks j _ _ hj; simp at hj
  | cons i rest ih =>
    intro ks j hpw hlt hj
    have hirest : i ∉ rest := fun h =>
      lt_irrefl i ((List.pairwise_cons.mp hpw).1 i h)
    simp only [List.foldl_cons]
    rcases List.mem_cons.mp hj with rfl | hjr
    · rw [getD_foldl_updateAt_not_mem g rest _ j hirest,
        getD_updateAt_eq ks j g (hlt j (List.mem_cons_self j rest))]
    · have hij : j ≠ i := fun h =>
        hirest (h ▸ hjr)
      rw [ih (updateAt ks i g) j (List.pairwise_cons.mp hpw).2
          (fun x hx => by rw [length_updateAt]; exact hlt x (List.mem_cons_of_mem i hx))
          hjr,
        getD_updateAt_ne ks i j g hij]

theorem getD_mem_of_ne_nil (part : List ℕ) (n : ℕ) (hne : part ≠ []) :
    part.getD (n % part.length) 0 ∈ part := by
  have hlen : 0 < part.length := List.length_pos.mpr hne
  have hmod : n % part.length < part.length := Nat.mod_lt n hlen
  rw [List.getD_eq_getElem?_getD, List.getElem?_eq_getElem hmod]
  exact List.getElem_mem hmod

/- ================== C3 ================== -/

/-- C3: under the Keeper-Pool mechanism each willing keeper's profit rises by
exactly `0.7 * profit / k` (equal split; the shares sum to `0.7 * profit`),
non-participants are untouched, and the uniformly-selected executor only has
its liquidation counter incremented — the selection leaves every payout
unchanged. -/
theorem execKeeperPool_spec (ks : List Keeper) (profit : ℚ) (sel : ℕ)
    (hne : participatingKeepers ks profit LiquidationMechanism.KeeperPool ≠ []) :
    (∀ i ∈ participatingKeepers ks profit LiquidationMechanism.KeeperPool,
      ((execKeeperPool ks profit
          (participatingKeepers ks profit LiquidationMechanism.KeeperPool)
          sel).getD i default).total_profit
        = (ks.getD i default).total_profit +
          profit * (7/10) /
            ((participatingKeepers ks profit
              LiquidationMechanism.KeeperPool).length : ℚ)) ∧
    (∀ j, j ∉ participatingKeepers ks profit LiquidationMechanism.KeeperPool →
      ((execKeeperPool ks profit
          (participatingKeepers ks profit LiquidationMechanism.KeeperPool)
          sel).getD j default).total_profit
        = (ks.getD j default).total_profit) ∧
    (((participatingKeepers ks profit
        LiquidationMechanism.KeeperPool).length : ℚ) *
      (profit * (7/10) /
        ((participatingKeepers ks profit
          LiquidationMechanism.KeeperPool).length : ℚ))
      = profit * (7/10)) ∧
    (∃ w ∈ participatingKeepers ks profit LiquidationMechanism.KeeperPool,
      ((execKeeperPool ks profit
          (participatingKeepers ks profit LiquidationMechanism.KeeperPool)
          sel).getD w default).liquidations
        = (ks.getD w default).liquidations + 1 ∧
      (∀ j, j ≠ w →
        ((execKeeperPool ks profit
            (participatingKeepers ks profit LiquidationMechanism.KeeperPool)
            sel).getD j default).liquidations
          = (ks.getD j default).liquidations)) ∧
    (∀ sel' : ℕ,
      (execKeeperPool ks profit
        (participatingKeepers ks profit LiquidationMechanism.KeeperPool)
        sel').map Keeper.total_profit
      = (execKeeperPool ks profit
        (participatingKeepers ks profit LiquidationMechanism.KeeperPool)
        sel).map Keeper.total_profit) := by
  set part := participatingKeepers ks profit LiquidationMechanism.KeeperPool with hpart
  have hpw : part.Pairwise (· < ·) :=
    participating_pairwise ks profit LiquidationMechanism.KeeperPool
  have hlt : ∀ i ∈ part, i < ks.length := fun i hi =>
    participating_mem_lt ks profit LiquidationMechanism.KeeperPool hi
  have hlen : (part.length : ℚ) ≠ 0 := by
    have : 0 < part.length := List.length_pos.mpr hne
    exact_mod_cast Nat.pos_iff_ne_zero.mp this
  set per := profit * (7/10) / (part.length : ℚ) with hper
  set bump : Keeper → Keeper :=
    (fun k => { k with total_profit := k.total_profit + per }) with hbump
  set ks1 := part.foldl (fun acc i => updateAt acc i bump) ks with hks1
  have hks1len : ks1.length = ks.length := length_foldl_updateAt bump part ks
  set w := part.getD (sel % part.length) 0 with hw
  have hwmem : w ∈ part := getD_mem_of_ne_nil part sel hne
  have hwlt : w < ks1.length := hks1len ▸ hlt w hwmem
  have hgoal : execKeeperPool ks profit part sel
      = updateAt ks1 w (fun k => { k with liquidations := k.liquidations + 1 }) := rfl
  refine ⟨?_, ?_, mul_div_cancel₀ _ hlen, ⟨w, hwmem, ?_, ?_⟩, ?_⟩
  · intro i hi
    rw [hgoal]
    by_cases hiw : i = w
    · rw [hiw, getD_updateAt_eq ks1 w _ hwlt,
        getD_foldl_updateAt_mem bump part ks w hpw hlt (hiw ▸ hi)]
    · rw [getD_updateAt_ne ks1 w i _ hiw,
        getD_foldl_updateAt_mem bump part ks i hpw hlt hi]
  · intro j hj
    rw [hgoal]
    have hjw : j ≠ w := fun h => hj (h ▸ hwmem)
    rw [getD_updateAt_ne ks1 w j _ hjw,
      getD_foldl_updateAt_not_mem bump part ks j hj]
  · rw [hgoal, getD_updateAt_eq ks1 w _ hwlt,
      getD_foldl_updateAt_mem bump part ks w hpw hlt hwmem]
  · intro j hjw
    rw [hgoal, getD_updateAt_ne ks1 w j _ hjw]
    by_cases hjp : j ∈ part
    · rw [getD_foldl_updateAt_mem bump part ks j hpw hlt hjp]
    · rw [getD_foldl_updateAt_not_mem bump part ks j hjp]
  · intro sel'
    have h1 : ∀ s : ℕ, (execKeeperPool ks profit part s).map Keeper.total_profit
        = ks1.map Keeper.total_profit := by
      intro s
      exact map_updateAt_invariant ks1 _ _ Keeper.total_profit (fun a => rfl)
    rw [h1 sel', h1 sel]

/-- C3 witness: two willing keepers, profit 100, selection draw 0. -/
theorem execKeeperPool_spec_witness :
    (participatingKeepers [⟨0, 0, 1, 0, 0⟩, ⟨1, 0, 2, 0, 0⟩] 100
        LiquidationMechanism.KeeperPool ≠ []) ∧
    ((∀ i ∈ participatingKeepers [⟨0, 0, 1, 0, 0⟩, ⟨1, 0, 2, 0, 0⟩] 100 LiquidationMechanism.KeeperPool,
      ((execKeeperPool [⟨0, 0, 1, 0, 0⟩, ⟨1, 0, 2, 0, 0⟩] 100
          (participatingKeepers [⟨0, 0, 1, 0, 0⟩, ⟨1, 0, 2, 0, 0⟩] 100 LiquidationMechanism.KeeperPool)
          0).getD i default).total_profit
        = (([⟨0, 0, 1, 0, 0⟩, ⟨1, 0, 2, 0, 0⟩] : List Keeper).getD i default).total_profit +
          100 * (7/10) /
            ((participatingKeepers [⟨0, 0, 1, 0, 0⟩, ⟨1, 0, 2, 0, 0⟩] 100
              LiquidationMechanism.KeeperPool).length : ℚ)) ∧
    (∀ j, j ∉ participatingKeepers [⟨0, 0, 1, 0, 0⟩, ⟨1, 0, 2, 0, 0⟩] 100 LiquidationMechanism.KeeperPool →
      ((execKeeperPool [⟨0, 0, 1, 0, 0⟩, ⟨1, 0, 2, 0, 0⟩] 100
          (participatingKeepers [⟨0, 0, 1, 0, 0⟩, ⟨1, 0, 2, 0, 0⟩] 100 LiquidationMechanism.KeeperPool)
          0).getD j default).total_profit
        = (([⟨0, 0, 1, 0, 0⟩, ⟨1, 0, 2, 0, 0⟩] : List Keeper).getD j default).total_profit) ∧
    (((participatingKeepers [⟨0, 0, 1, 0, 0⟩, ⟨1, 0, 2, 0, 0⟩] 100
        LiquidationMechanism.KeeperPool).length : ℚ) *
      (100 * (7/10) /
        ((participatingKeepers [⟨0, 0, 1, 0, 0⟩, ⟨1, 0, 2, 0, 0⟩] 100
          LiquidationMechanism.KeeperPool).length : ℚ))
      = 100 * (7/10)) ∧
    (∃ w ∈ participatingKeepers [⟨0, 0, 1, 0, 0⟩, ⟨1, 0, 2, 0, 0⟩] 100 LiquidationMechanism.KeeperPool,
      ((execKeeperPool [⟨0, 0, 1, 0, 0⟩, ⟨1, 0, 2, 0, 0⟩] 100
          (participatingKeepers [⟨0, 0, 1, 0, 0⟩, ⟨1, 0, 2, 0, 0⟩] 100 LiquidationMechanism.KeeperPool)
          0).getD w default).liquidations
        = (([⟨0, 0, 1, 0, 0⟩, ⟨1, 0, 2, 0, 0⟩] : List Keeper).getD w default).liquidations + 1 ∧
      (∀ j, j ≠ w →
        ((execKeeperPool [⟨0, 0, 1, 0, 0⟩, ⟨1, 0, 2, 0, 0⟩] 100
            (participatingKeepers [⟨0, 0, 1, 0, 0⟩, ⟨1, 0, 2, 0, 0⟩] 100 LiquidationMechanism.KeeperPool)
            0).getD j default).liquidations
          = (([⟨0, 0, 1, 0, 0⟩, ⟨1, 0, 2, 0, 0⟩] : List Keeper).getD j default).liquidations)) ∧
    (∀ sel' : ℕ,
      (execKeeperPool [⟨0, 0, 1, 0, 0⟩, ⟨1, 0, 2, 0, 0⟩] 100
        (participatingKeepers [⟨0, 0, 1, 0, 0⟩, ⟨1, 0, 2, 0, 0⟩] 100 LiquidationMechanism.KeeperPool)
        sel').map Keeper.total_profit
      = (execKeeperPool [⟨0, 0, 1, 0, 0⟩, ⟨1, 0, 2, 0, 0⟩] 100
        (participatingKeepers [⟨0, 0, 1, 0, 0⟩, ⟨1, 0, 2, 0, 0⟩] 100 LiquidationMechanism.KeeperPool)
        0).map Keeper.total_profit)) :=
  ⟨by decide, execKeeperPool_spec [⟨0, 0, 1, 0, 0⟩, ⟨1, 0, 2, 0, 0⟩] 100 0 (by decide)⟩

/- The per-run bookkeeping of `CascadeSimulation::run` (cascade.rs lines
312-340).  The loop body interacts with the rest of the simulation state
only through the number of liquidations each block produces (the value
returned by `run_liquidation_round`), so the loop is embedded over that
per-block count sequence `counts`.  `fuel` encodes the
`while self.block < MAX_BLOCKS` guard (`fuel = MAX_BLOCKS - block`). -/

/-- The loop of `CascadeSimulation::run`: arguments are fuel, `self.block`,
`self.cascade_depth`, `self.current_wave_liquidations`,
`consecutive_empty_blocks`; the result is `(self.block, self.cascade_depth)`
at exit, i.e. (`blocks_to_stability`, `cascade_depth`).  The `break` returns
the current block index without the final `self.block += 1`, exactly as in
the source.  The local `max_wave_liquidations` is never read by
`CascadeResult` and is omitted. -/
def cascadeLoop (counts : ℕ → ℕ) : ℕ → ℕ → ℕ → ℕ → ℕ → ℕ × ℕ
  | 0, block, depth, _wave, _consec => (block, depth)
  | fuel + 1, block, depth, wave, consec =>
    if 0 < counts block then
      cascadeLoop counts fuel (block + 1) depth (wave + counts block) 0
    else
      if 5 ≤ consec + 1 ∧ 10 < block then
        (block, if 0 < wave then depth + 1 else depth)
      else
        cascadeLoop counts fuel (block + 1)
          (if 0 < wave then depth + 1 else depth) 0 (consec + 1)

/-- A full run's bookkeeping, from block 0. -/
def cascadeRun (counts : ℕ → ℕ) : ℕ × ℕ :=
  cascadeLoop counts MAX_BLOCKS 0 0 0 0

/-- The number of maximal runs of consecutive liquidation-producing blocks
among blocks `0 .. n-1` that are closed by a zero-liquidation block inside
that range (block `e` empty, block `e-1` liquidating). -/
def countClosedWaves (counts : ℕ → ℕ) (n : ℕ) : ℕ :=
  ((List.range n).filter fun e =>
    decide (0 < e ∧ counts e = 0 ∧ 0 < counts (e - 1))).length

/-- Five consecutive empty blocks ending at block `b`. -/
def emptyStreak5 (counts : ℕ → ℕ) (b : ℕ) : Bool :=
  (List.range 5).all fun j => decide (counts (b - j) = 0)

/-- First block `≥ b0` at which the source's early exit fires
(`consecutive_empty_blocks >= 5 && self.block > 10`), or `MAX_BLOCKS`. -/
def stopFrom (counts : ℕ → ℕ) (b0 : ℕ) : ℕ :=
  (((List.range' b0 (MAX_BLOCKS - b0)).find? fun b =>
    decide (10 < b) && emptyStreak5 counts b).getD MAX_BLOCKS)

/-- The block at which the run stops. -/
def stopBlock (counts : ℕ → ℕ) : ℕ := stopFrom counts 0

/-- The cascade depth predicted by claim C1's reading: every maximal run of
liquidation-producing blocks counts, a wave still open at termination
included. -/
def claimDepthC1 (counts : ℕ → ℕ) : ℕ :=
  let executed := min ((cascadeRun counts).1 + 1) MAX_BLOCKS
  countClosedWaves counts executed +
    (if 0 < executed ∧ 0 < counts (executed - 1) then 1 else 0)

/-- The stopping block predicted by claim C2's reading: the first block at
which 5 consecutive empty blocks have occurred and at least 10 blocks
(the current one included) have elapsed. -/
def claimStopC2 (counts : ℕ → ℕ) : ℕ :=
  (((List.range MAX_BLOCKS).find? fun b =>
    decide (10 ≤ b + 1) && decide (4 ≤ b) && emptyStreak5 counts b).getD MAX_BLOCKS)

/- Helper lemmas for the loop analysis. -/

theorem emptyStreak5_iff (counts : ℕ → ℕ) (b : ℕ) :
    emptyStreak5 counts b = true ↔ ∀ j < 5, counts (b - j) = 0 := by
  unfold emptyStreak5
  rw [List.all_eq_true]
  constructor
  · intro h j hj
    exact of_decide_eq_true (h j (List.mem_range.mpr hj))
  · intro h j hj
    exact decide_eq_true (h j (List.mem_range.mp hj))

theorem stopFrom_top (counts : ℕ → ℕ) : stopFrom counts MAX_BLOCKS = MAX_BLOCKS := by
  unfold stopFrom
  rw [Nat.sub_self, List.range'_zero, List.find?_nil]
  rfl

theorem stopFrom_succ_of_not (counts : ℕ → ℕ) (b : ℕ) (hb : b < MAX_BLOCKS)
    (h : ¬(10 < b ∧ emptyStreak5 counts b = true)) :
    stopFrom counts b = stopFrom counts (b + 1) := by
  unfold stopFrom
  have h1 : MAX_BLOCKS - b = (MAX_BLOCKS - (b + 1)) + 1 := by omega
  rw [h1, List.range'_succ, List.find?_cons_of_neg]
  simp only [Bool.and_eq_true, decide_eq_true_eq]
  exact h

theorem stopFrom_eq_self (counts : ℕ → ℕ) (b : ℕ) (hb : b < MAX_BLOCKS)
    (h10 : 10 < b) (hst : emptyStreak5 counts b = true) :
    stopFrom counts b = b := by
  unfold stopFrom
  have h1 : MAX_BLOCKS - b = (MAX_BLOCKS - (b + 1)) + 1 := by omega
  rw [h1, List.range'_succ, List.find?_cons_of_pos]
  · rfl
  · simp only [Bool.and_eq_true, decide_eq_true_eq]
    exact ⟨h10, hst⟩

theorem countClosedWaves_succ (counts : ℕ → ℕ) (n : ℕ) :
    countClosedWaves counts (n + 1) = countClosedWaves counts n +
      (if 0 < n ∧ counts n = 0 ∧ 0 < counts (n - 1) then 1 else 0) := by
  unfold countClosedWaves
  rw [List.range_succ, List.filter_append, List.length_append]
  congr 1
  by_cases h : 0 < n ∧ counts n = 0 ∧ 0 < counts (n - 1)
  · simp [h]
  · simp [h]

/-- Loop invariant for the stopping block: started at `block` with a correct
trailing-empty-streak counter, the loop exits at the first block `b ≥ block`
with `consecutive_empty_blocks >= 5 && b > 10`, or at the hard cap. -/
theorem cascadeLoop_fst (counts : ℕ → ℕ) : ∀ (fuel block depth wave consec : ℕ),
    block + fuel = MAX_BLOCKS →
    consec ≤ block →
    (∀ j < consec, counts (block - 1 - j) = 0) →
    (consec < block → 0 < counts (block - 1 - consec)) →
    (cascadeLoop counts fuel block depth wave consec).1 = stopFrom counts block := by
  intro fuel
  induction fuel with
  | zero =>
    intro block depth wave consec hfb _ _ _
    have hb : block = MAX_BLOCKS := by omega
    subst hb
    rw [stopFrom_top]
    rfl
  | succ fuel ih =>
    intro block depth wave consec hfb hcb hstreak hmax
    have hblt : block < MAX_BLOCKS := by omega
    by_cases hpos : 0 < counts block
    · have hstep : cascadeLoop counts (fuel + 1) block depth wave consec
          = cascadeLoop counts fuel (block + 1) depth (wave + counts block) 0 := by
        rw [cascadeLoop, if_pos hpos]
      rw [hstep]
      rw [ih (block + 1) depth (wave + counts block) 0 (by omega) (by omega)
        (fun j hj => absurd hj (Nat.not_lt_zero j))
        (fun _ => by simpa using hpos)]
      rw [← stopFrom_succ_of_not counts block hblt]
      intro ⟨_, hst⟩
      have := (emptyStreak5_iff counts block).mp hst 0 (by omega)
      simp at this
      omega
    · have hzero : counts block = 0 := by omega
      by_cases hbrk : 5 ≤ consec + 1 ∧ 10 < block
      · have hstep : cascadeLoop counts (fuel + 1) block depth wave consec
            = (block, if 0 < wave then depth + 1 else depth) := by
          rw [cascadeLoop, if_neg hpos, if_pos hbrk]
        rw [hstep]
        have hst : emptyStreak5 counts block = true := by
          rw [emptyStreak5_iff]
          intro j hj
          rcases Nat.eq_zero_or_pos j with rfl | hjpos
          · simpa using hzero
          · have hj1 : j - 1 < consec := by omega
            have := hstreak (j - 1) hj1
            have heq : block - 1 - (j - 1) = block - j := by omega
            rwa [heq] at this
        rw [stopFrom_eq_self counts block hblt hbrk.2 hst]
      · have hstep : cascadeLoop counts (fuel + 1) block depth wave consec
            = cascadeLoop counts fuel (block + 1)
                (if 0 < wave then depth + 1 else depth) 0 (consec + 1) := by
          rw [cascadeLoop, if_neg hpos, if_neg hbrk]
        rw [hstep]
        rw [ih (block + 1) _ 0 (consec + 1) (by omega) (by omega)
          (by
            intro j hj
            rcases Nat.eq_zero_or_pos j with rfl | hjpos
            · simpa using hzero
            · have hj1 : j - 1 < consec := by omega
              have := hstreak (j - 1) hj1
              have heq : block - 1 - (j - 1) = block + 1 - 1 - j := by omega
              rwa [heq] at this)
          (by
            intro hlt
            have hcl : consec < block := by omega
            have := hmax hcl
            have heq : block - 1 - consec = block + 1 - 1 - (consec + 1) := by omega
            rwa [heq] at this)]
        rw [← stopFrom_succ_of_not counts block hblt]
        intro ⟨h10, hst⟩
        -- the streak at `block` would force `consec + 1 ≥ 5`
        have hs := (emptyStreak5_iff counts block).mp hst
        have hc4 : consec < 4 := by omega
        have hcl : consec < block := by omega
        have hmx := hmax hcl
        have := hs (consec + 1) (by omega)
        have heq : block - (consec + 1) = block - 1 - consec := by omega
        rw [heq] at this
        omega

/-- Loop invariant for the cascade depth: the depth counter always equals the
number of closed waves among the blocks already executed, and at exit equals
the closed-wave count over all executed blocks (`min (B+1) MAX_BLOCKS` of
them, where `B` is the recorded stopping block). -/
theorem cascadeLoop_snd (counts : ℕ → ℕ) : ∀ (fuel block depth wave consec : ℕ),
    block + fuel = MAX_BLOCKS →
    (0 < wave ↔ (0 < block ∧ 0 < counts (block - 1))) →
    depth = countClosedWaves counts block →
    (cascadeLoop counts fuel block depth wave consec).2
      = countClosedWaves counts
          (min ((cascadeLoop counts fuel block depth wave consec).1 + 1) MAX_BLOCKS) := by
  intro fuel
  induction fuel with
  | zero =>
    intro block depth wave consec hfb _ hd
    have hb : block = MAX_BLOCKS := by omega
    subst hb
    have h1 : (cascadeLoop counts 0 MAX_BLOCKS depth wave consec) = (MAX_BLOCKS, depth) := rfl
    rw [h1]
    have h2 : min (MAX_BLOCKS + 1) MAX_BLOCKS = MAX_BLOCKS := by omega
    rw [h2]
    exact hd
  | succ fuel ih =>
    intro block depth wave consec hfb hw hd
    have hblt : block < MAX_BLOCKS := by omega
    by_cases hpos : 0 < counts block
    · have hstep : cascadeLoop counts (fuel + 1) block depth wave consec
          = cascadeLoop counts fuel (block + 1) depth (wave + counts block) 0 := by
        rw [cascadeLoop, if_pos hpos]
      rw [hstep]
      apply ih (block + 1) depth (wave + counts block) 0 (by omega)
      · constructor
        · intro _
          exact ⟨by omega, by simpa using hpos⟩
        · intro _
          omega
      · rw [countClosedWaves_succ, hd]
        have : ¬(0 < block ∧ counts block = 0 ∧ 0 < counts (block - 1)) := by
          intro ⟨_, h0, _⟩
          omega
        rw [if_neg this]
        omega
    · have hzero : counts block = 0 := by omega
      have hdep : (if 0 < wave then depth + 1 else depth)
          = countClosedWaves counts (block + 1) := by
        rw [countClosedWaves_succ, hd]
        by_cases hwv : 0 < wave
        · rw [if_pos hwv, if_pos ⟨(hw.mp hwv).1, hzero, (hw.mp hwv).2⟩]
        · have hcond : ¬(0 < block ∧ counts block = 0 ∧ 0 < counts (block - 1)) := by
            intro ⟨hb0, _, hcb⟩
            exact hwv (hw.mpr ⟨hb0, hcb⟩)
          rw [if_neg hwv, if_neg hcond]
          omega
      by_cases hbrk : 5 ≤ consec + 1 ∧ 10 < block
      · have hstep : cascadeLoop counts (fuel + 1) block depth wave consec
            = (block, if 0 < wave then depth + 1 else depth) := by
          rw [cascadeLoop, if_neg hpos, if_pos hbrk]
        rw [hstep]
        have h2 : min (block + 1) MAX_BLOCKS = block + 1 := by omega
        rw [h2]
        exact hdep
      · have hstep : cascadeLoop counts (fuel + 1) block depth wave consec
            = cascadeLoop counts fuel (block + 1)
                (if 0 < wave then depth + 1 else depth) 0 (consec + 1) := by
          rw [cascadeLoop, if_neg hpos, if_neg hbrk]
        rw [hstep]
        apply ih (block + 1) _ 0 (consec + 1) (by omega)
        · constructor
          · intro h
            exact absurd h (by omega)
          · intro ⟨_, hcb⟩
            simp [hzero] at hcb
        · exact hdep

/- ================== C1 ================== -/

/-- C1 (amended): the final cascade depth equals the number of maximal runs
of consecutive liquidation-producing blocks that were closed by a
zero-liquidation block before the run terminated; a wave still open when the
hard block cap stops the run is not counted. -/
theorem cascade_depth_eq_closed_waves (counts : ℕ → ℕ) :
    (cascadeRun counts).2
      = countClosedWaves counts (min ((cascadeRun counts).1 + 1) MAX_BLOCKS) := by
  unfold cascadeRun
  apply cascadeLoop_snd counts MAX_BLOCKS 0 0 0 0 rfl
  · simp
  · rfl

/-- C1 counterexample: with one liquidation in every block the run ends at
the hard cap with its single (still-open) wave uncounted — `cascade_depth`
is 0 although one maximal liquidation run ended when the run terminated, so
the claim's parenthetical reading is false. -/
theorem cascade_depth_counterexample :
    (cascadeRun fun _ => 1).2 ≠ claimDepthC1 (fun _ => 1) := by decide

/- ================== C2 ================== -/

/-- C2 (amended): every run terminates, at the hard cap `MAX_BLOCKS` or
earlier at the first block `b` whose trailing five blocks (b-4 .. b) are all
empty and whose index satisfies `b > 10` — i.e. the early exit cannot fire
before block 11, which is strictly later than "at least 10 blocks have
elapsed". -/
theorem cascade_stop_block (counts : ℕ → ℕ) :
    (cascadeRun counts).1 = stopBlock counts ∧ stopBlock counts ≤ MAX_BLOCKS := by
  constructor
  · unfold cascadeRun stopBlock
    exact cascadeLoop_fst counts MAX_BLOCKS 0 0 0 0 rfl (by omega)
      (fun j hj => absurd hj (Nat.not_lt_zero j)) (fun h => absurd h (by omega))
  · unfold stopBlock stopFrom
    cases hf : (List.range' 0 (MAX_BLOCKS - 0)).find? fun b =>
        decide (10 < b) && emptyStreak5 counts b with
    | none => simp
    | some b =>
      have hmem := List.mem_of_find?_eq_some hf
      have := List.mem_range'_1.mp hmem
      simp only [Option.getD_some]
      omega

/-- C2 counterexample: with zero liquidations in every block, five
consecutive empty blocks and ten elapsed blocks are first reached at block 9,
but the run stops only at block 11 (the `self.block > 10` guard), so the
claim's stopping rule does not match the code. -/
theorem cascade_stop_counterexample :
    (cascadeRun fun _ => 0).1 ≠ claimStopC2 (fun _ => 0) := by decide

/- `PriceModel`, `PricePathConfig` and `generate_price_path`
(monte_carlo.rs lines 27-183). -/

inductive PriceModel where
  | GBM
  | JumpDiffusion
  | GARCH
  | HistoricalMar2020
  | HistoricalMay2021
  | HistoricalNov2022
deriving DecidableEq, Repr

structure PricePathConfig where
  model : PriceModel
  blocks : ℕ
  drift : ℚ
  volatility : ℚ
  jump_intensity : ℚ
  jump_mean : ℚ
  jump_std : ℚ

def INITIAL_PRICE : ℚ := 2000

/-- The random source of `generate_price_path`: streams of the sampled
values (standard-normal draws, Poisson draws, jump-size normal draws),
consumed left to right at exactly the source's sampling sites. -/
structure PathRandom where
  normal : ℕ → ℚ
  poisson : ℕ → ℕ
  jump : ℕ → ℚ

/-- Mutable locals of the generation loop: `price`, `current_vol` and the
consumption positions in the three random streams. -/
structure PathState where
  price : ℚ
  current_vol : ℚ
  nIdx : ℕ
  pIdx : ℕ
  jIdx : ℕ

def blocksPerYear : ℚ := 365 * 24 * 60 * 5
def pathDt : ℚ := 1 / blocksPerYear

def mar2020Returns : List ℚ :=
  [-8/100, -12/100, -25/100, -15/100, 5/100, -10/100, -8/100,
    15/100, 8/100, -5/100, 3/100, -2/100, 10/100, 5/100]
def may2021Returns : List ℚ :=
  [-5/100, -8/100, -12/100, -30/100, -10/100, 8/100, -15/100,
    -5/100, 10/100, 5/100, -3/100, 2/100, -5/100, 8/100]
def nov2022Returns : List ℚ :=
  [-3/100, -5/100, -15/100, -20/100, -10/100, -8/100, 5/100,
    -5/100, -3/100, 2/100, -2/100, 1/100, -1/100, 3/100]

/-- One bootstrap step of the three historical models; `len` is
`prices.len()` at this iteration. -/
def historicalStep (table : List ℚ) (rs : PathRandom) (len : ℕ)
    (st : PathState) : ℚ × PathState :=
  let block_idx := len % (table.length * 10)
  let day_idx := block_idx / 10
  let intraday_noise := rs.normal st.nIdx * (2/100)
  let ret := table.getD day_idx 0 / 10 + intraday_noise
  (st.price * (1 + ret), { st with nIdx := st.nIdx + 1 })

/-- The `match config.model` body of one loop iteration of
`generate_price_path` (monte_carlo.rs lines 99-176); `expQ` and `sqrtQ`
stand for `E.powf` and `f64::sqrt`; `k` is the iteration index, so
`prices.len()` is `k + 1`. -/
def pathStepRaw (expQ sqrtQ : ℚ → ℚ) (config : PricePathConfig)
    (rs : PathRandom) (k : ℕ) (st : PathState) : ℚ × PathState :=
  match config.model with
  | .GBM =>
    let z := rs.normal st.nIdx
    let ret := (config.drift - 1/2 * config.volatility^2) * pathDt
      + config.volatility * sqrtQ pathDt * z
    (st.price * expQ ret, { st with nIdx := st.nIdx + 1 })
  | .JumpDiffusion =>
    let z := rs.normal st.nIdx
    let diffusion := (config.drift - 1/2 * config.volatility^2) * pathDt
      + config.volatility * sqrtQ pathDt * z
    let num_jumps := rs.poisson st.pIdx
    let jump_component := (List.range num_jumps).foldl
      (fun s t => s + rs.jump (st.jIdx + t)) 0
    (st.price * expQ (diffusion + jump_component),
      { st with nIdx := st.nIdx + 1, pIdx := st.pIdx + 1,
                jIdx := st.jIdx + num_jumps })
  | .GARCH =>
    let z := rs.normal st.nIdx
    let alpha := (1/10 : ℚ)
    let beta := (85/100 : ℚ)
    let omega := config.volatility^2 * (1 - alpha - beta)
    let shock := st.current_vol * z
    let cv := min (max (sqrtQ (omega + alpha * shock^2 + beta * st.current_vol^2))
      (1/2)) 3
    let ret := (config.drift - 1/2 * cv^2) * pathDt + cv * sqrtQ pathDt * z
    (st.price * expQ ret, { st with current_vol := cv, nIdx := st.nIdx + 1 })
  | .HistoricalMar2020 => historicalStep mar2020Returns rs (k + 1) st
  | .HistoricalMay2021 => historicalStep may2021Returns rs (k + 1) st
  | .HistoricalNov2022 => historicalStep nov2022Returns rs (k + 1) st

/-- One full loop iteration: the model step followed by the
`price = price.max(50.0)` floor. -/
def pathStep (expQ sqrtQ : ℚ → ℚ) (config : PricePathConfig)
    (rs : PathRandom) (k : ℕ) (st : PathState) : ℚ × PathState :=
  let r := pathStepRaw expQ sqrtQ config rs k st
  (max r.1 50, { r.2 with price := max r.1 50 })

/-- Source `generate_price_path` (monte_carlo.rs lines 88-183). -/
def generate_price_path (expQ sqrtQ : ℚ → ℚ) (config : PricePathConfig)
    (rs : PathRandom) : List ℚ :=
  ((List.range config.blocks).foldl
    (fun acc k =>
      let ps := pathStep expQ sqrtQ config rs k acc.2
      (acc.1 ++ [ps.1], ps.2))
    ([INITIAL_PRICE], ⟨INITIAL_PRICE, config.volatility, 0, 0, 0⟩)).1

/- Helper lemmas for C8. -/

theorem pathStep_fst_ge (expQ sqrtQ : ℚ → ℚ) (config : PricePathConfig)
    (rs : PathRandom) (k : ℕ) (st : PathState) :
    50 ≤ (pathStep expQ sqrtQ config rs k st).1 :=
  le_max_right _ _

theorem path_foldl_spec (expQ sqrtQ : ℚ → ℚ) (config : PricePathConfig)
    (rs : PathRandom) (ks : List ℕ) :
    ∀ acc : List ℚ × PathState,
      ((ks.foldl (fun acc k =>
          let ps := pathStep expQ sqrtQ config rs k acc.2
          (acc.1 ++ [ps.1], ps.2)) acc).1.length = acc.1.length + ks.length) ∧
      ∃ ext : List ℚ,
        (ks.foldl (fun acc k =>
          let ps := pathStep expQ sqrtQ config rs k acc.2
          (acc.1 ++ [ps.1], ps.2)) acc).1 = acc.1 ++ ext ∧
        ∀ x ∈ ext, 50 ≤ x := by
  induction ks with
  | nil =>
    intro acc
    exact ⟨rfl, [], (List.append_nil acc.1).symm, fun x hx => absurd hx (List.not_mem_nil x)⟩
  | cons k ks ih =>
    intro acc
    simp only [List.foldl_cons]
    obtain ⟨hlen, ext, hext, hge⟩ := ih
      (acc.1 ++ [(pathStep expQ sqrtQ config rs k acc.2).1],
        (pathStep expQ sqrtQ config rs k acc.2).2)
    constructor
    · rw [hlen]
      simp
      omega
    · refine ⟨(pathStep expQ sqrtQ config rs k acc.2).1 :: ext, ?_, ?_⟩
      · rw [hext, List.append_assoc]
        rfl
      · intro x hx
        rcases List.mem_cons.mp hx with rfl | hxe
        · exact pathStep_fst_ge expQ sqrtQ config rs k acc.2
        · exact hge x hxe

/- ================== C8 ================== -/

/-- C8: for every configuration, every exp/sqrt realization and every random
stream, the generated path has exactly `blocks + 1` prices, starts at the
initial price 2000, and every later element is at least the floor of 50 —
uniformly over all six price models. -/
theorem generate_price_path_spec (expQ sqrtQ : ℚ → ℚ)
    (config : PricePathConfig) (rs : PathRandom) :
    (generate_price_path expQ sqrtQ config rs).length = config.blocks + 1 ∧
    (generate_price_path expQ sqrtQ config rs).getD 0 0 = INITIAL_PRICE ∧
    (∀ i, 0 < i → i ≤ config.blocks →
      50 ≤ (generate_price_path expQ sqrtQ config rs).getD i 0) := by
  obtain ⟨hlen, ext, hext, hge⟩ := path_foldl_spec expQ sqrtQ config rs
    (List.range config.blocks)
    ([INITIAL_PRICE], ⟨INITIAL_PRICE, config.volatility, 0, 0, 0⟩)
  have hpath : generate_price_path expQ sqrtQ config rs = INITIAL_PRICE :: ext := by
    unfold generate_price_path
    rw [hext]
    rfl
  have hextlen : ext.length = config.blocks := by
    have h2 : (INITIAL_PRICE :: ext).length = config.blocks + 1 := by
      rw [← hpath]
      unfold generate_price_path
      rw [hlen]
      simp
      omega
    simpa using h2
  refine ⟨?_, ?_, ?_⟩
  · rw [hpath]
    simp [hextlen]
  · rw [hpath]
    rfl
  · intro i hi hib
    rw [hpath]
    obtain ⟨m, rfl⟩ : ∃ m, i = m + 1 := ⟨i - 1, by omega⟩
    rw [List.getD_cons_succ]
    have hm : m < ext.length := by omega
    rw [getD_eq_getElem_of_lt ext m hm]
    exact hge _ (List.getElem_mem hm)

/-- C8 witness: concrete instantiation at a one-block GBM configuration with
zero streams and identity exp/sqrt. -/
theorem generate_price_path_witness :
    0 < 1 ∧ 1 ≤ (⟨PriceModel.GBM, 1, 0, 0, 0, 0, 0⟩ : PricePathConfig).blocks ∧
      50 ≤ (generate_price_path id id ⟨PriceModel.GBM, 1, 0, 0, 0, 0, 0⟩
        ⟨fun _ => 0, fun _ => 0, fun _ => 0⟩).getD 1 0 :=
  ⟨by decide, by decide,
    (generate_price_path_spec id id ⟨PriceModel.GBM, 1, 0, 0, 0, 0, 0⟩
      ⟨fun _ => 0, fun _ => 0, fun _ => 0⟩).2.2 1 (by decide) (by decide)⟩

/- `run_liquidation_round` (cascade.rs lines 240-304). -/

/-- The liquidatable-position indices (cascade.rs lines 241-245). -/
def liquidatableIndices (cdps : List CDP) (eth_price : ℚ) : List ℕ :=
  (cdps.enum.filter (fun ic => ic.2.is_liquidatable eth_price)).map Prod.fst

/-- The ratio-ascending ranking (cascade.rs lines 247-251): Rust `sort_by`
is a stable ascending sort, most undercollateralized first. -/
def rankedLiquidatable (cdps : List CDP) (eth_price : ℚ) : List ℕ :=
  (liquidatableIndices cdps eth_price).mergeSort
    (fun a b => decide ((cdps.getD a default).collateral_ratio eth_price
      ≤ (cdps.getD b default).collateral_ratio eth_price))

/-- Mutable state of one liquidation round: the position pool, the keeper
pool, `liquidations_this_block`, `eth_sold_this_block` and the consumption
position in the `gen_range` stream. -/
structure RoundState where
  cdps : List CDP
  keepers : List Keeper
  liquidations_this_block : ℕ
  eth_sold_this_block : ℚ
  selIdx : ℕ

/-- The body of the `for cdp_idx in liquidatable.iter().take(..)` loop
(cascade.rs lines 256-299): a candidate with no willing keeper is skipped
(`continue`) but still consumed one of the capped slots. -/
def roundStep (eth_price : ℚ) (mechanism : LiquidationMechanism)
    (sels : ℕ → ℕ) (s : RoundState) (cdp_idx : ℕ) : RoundState :=
  if (participatingKeepers s.keepers
      ((s.cdps.getD cdp_idx default).liquidation_profit eth_price)
      mechanism).isEmpty then s
  else
    { cdps := updateAt s.cdps cdp_idx (fun c => { c with is_liquidated := true }),
      keepers :=
        match mechanism with
        | .Traditional =>
          execTraditional s.keepers
            ((s.cdps.getD cdp_idx default).liquidation_profit eth_price)
            (participatingKeepers s.keepers
              ((s.cdps.getD cdp_idx default).liquidation_profit eth_price)
              mechanism)
        | .KeeperPool =>
          execKeeperPool s.keepers
            ((s.cdps.getD cdp_idx default).liquidation_profit eth_price)
            (participatingKeepers s.keepers
              ((s.cdps.getD cdp_idx default).liquidation_profit eth_price)
              mechanism)
            (sels s.selIdx),
      liquidations_this_block := s.liquidations_this_block + 1,
      eth_sold_this_block :=
        s.eth_sold_this_block + (s.cdps.getD cdp_idx default).collateral,
      selIdx :=
        match mechanism with
        | .Traditional => s.selIdx
        | .KeeperPool => s.selIdx + 1 }

/-- Source `run_liquidation_round` (cascade.rs lines 240-304) up to the final
`apply_liquidation_price_impact` call, which mutates the enclosing run
state; `sels` is the stream of `rng.gen_range` draws. -/
def run_liquidation_round (cdps : List CDP) (keepers : List Keeper)
    (eth_price : ℚ) (mechanism : LiquidationMechanism)
    (sels : ℕ → ℕ) : RoundState :=
  ((rankedLiquidatable cdps eth_price).take LIQUIDATIONS_PER_BLOCK).foldl
    (roundStep eth_price mechanism sels)
    ⟨cdps, keepers, 0, 0, 0⟩

/- Helper lemmas for C9. -/

theorem participating_isEmpty_of_length (ks ks' : List Keeper) (profit : ℚ)
    (mech : LiquidationMechanism) (h : ks.length = ks'.length) :
    (participatingKeepers ks profit mech).isEmpty
      = (participatingKeepers ks' profit mech).isEmpty := by
  rw [participating_eq, participating_eq]
  cases (default : Keeper).willing_to_liquidate profit mech with
  | true => simp [h]
  | false => simp

theorem length_execTraditional (ks : List Keeper) (profit : ℚ)
    (part : List ℕ) : (execTraditional ks profit part).length = ks.length := by
  unfold execTraditional
  cases rustMaxBy (fun i => (ks.getD i default).gas_priority) part with
  | none => rfl
  | some w => exact length_updateAt ks w _

theorem length_execKeeperPool (ks : List Keeper) (profit : ℚ)
    (part : List ℕ) (sel : ℕ) :
    (execKeeperPool ks profit part sel).length = ks.length := by
  unfold execKeeperPool
  rw [length_updateAt, length_foldl_updateAt]

theorem liquidatable_sublist_range (cdps : List CDP) (eth_price : ℚ) :
    List.Sublist (liquidatableIndices cdps eth_price) (List.range cdps.length) := by
  unfold liquidatableIndices
  have h1 : List.Sublist
      ((cdps.enum.filter (fun ic => ic.2.is_liquidatable eth_price)).map Prod.fst)
      (cdps.enum.map Prod.fst) := (List.filter_sublist _).map _
  have h2 : cdps.enum.map Prod.fst = List.range cdps.length := by
    rw [List.enum_eq_enumFrom, List.enumFrom_map_fst, List.range_eq_range']
  rwa [h2] at h1

theorem ranked_nodup (cdps : List CDP) (eth_price : ℚ) :
    (rankedLiquidatable cdps eth_price).Nodup := by
  have h1 : (liquidatableIndices cdps eth_price).Nodup :=
    ((List.pairwise_lt_range cdps.length).sublist
      (liquidatable_sublist_range cdps eth_price)).imp (fun h => Nat.ne_of_lt h)
  exact (List.mergeSort_perm (liquidatableIndices cdps eth_price) _).symm.nodup h1

/-- The count accumulated by the round fold: one per considered candidate
with at least one willing keeper, judged against the pre-round pools. -/
theorem roundFold_count (eth_price : ℚ) (mech : LiquidationMechanism)
    (sels : ℕ → ℕ) (cdps0 : List CDP) (keepers0 : List Keeper) :
    ∀ (todo : List ℕ) (s : RoundState), todo.Nodup →
      (∀ i ∈ todo, s.cdps.getD i default = cdps0.getD i default) →
      s.keepers.length = keepers0.length →
      (todo.foldl (roundStep eth_price mech sels) s).liquidations_this_block
        = s.liquidations_this_block +
          (todo.filter (fun i => !(participatingKeepers keepers0
            ((cdps0.getD i default).liquidation_profit eth_price)
            mech).isEmpty)).length := by
  intro todo
  induction todo with
  | nil => intro s _ _ _; simp
  | cons i rest ih =>
    intro s hnd hcd hkl
    have hirest : i ∉ rest := (List.nodup_cons.mp hnd).1
    have hcdi : s.cdps.getD i default = cdps0.getD i default :=
      hcd i (List.mem_cons_self i rest)
    have hemp : (participatingKeepers s.keepers
        ((s.cdps.getD i default).liquidation_profit eth_price) mech).isEmpty
        = (participatingKeepers keepers0
          ((cdps0.getD i default).liquidation_profit eth_price) mech).isEmpty := by
      rw [hcdi]
      exact participating_isEmpty_of_length _ _ _ _ hkl
    simp only [List.foldl_cons, List.filter_cons]
    by_cases he : (participatingKeepers keepers0
        ((cdps0.getD i default).liquidation_profit eth_price) mech).isEmpty
    · have hskip : roundStep eth_price mech sels s i = s := by
        unfold roundStep
        rw [if_pos (hemp.trans he)]
      rw [hskip]
      have hpred : (!(participatingKeepers keepers0
          ((cdps0.getD i default).liquidation_profit eth_price) mech).isEmpty)
          = false := by rw [he]; rfl
      rw [hpred]
      simp only [Bool.false_eq_true, if_false]
      exact ih s (List.nodup_cons.mp hnd).2
        (fun j hj => hcd j (List.mem_cons_of_mem i hj)) hkl
    · have heb : (participatingKeepers keepers0
          ((cdps0.getD i default).liquidation_profit eth_price) mech).isEmpty
          = false := by
        revert he
        cases (participatingKeepers keepers0
          ((cdps0.getD i default).liquidation_profit eth_price) mech).isEmpty <;> simp
      have hne : (participatingKeepers s.keepers
          ((s.cdps.getD i default).liquidation_profit eth_price) mech).isEmpty
          = false := hemp.trans heb
      have hnetrue : ¬((participatingKeepers s.keepers
          ((s.cdps.getD i default).liquidation_profit eth_price) mech).isEmpty
          = true) := by
        rw [hne]
        exact Bool.false_ne_true
      have hliq : (roundStep eth_price mech sels s i).liquidations_this_block
          = s.liquidations_this_block + 1 := by
        unfold roundStep
        rw [if_neg hnetrue]
      have hcdps : (roundStep eth_price mech sels s i).cdps
          = updateAt s.cdps i (fun c => { c with is_liquidated := true }) := by
        unfold roundStep
        rw [if_neg hnetrue]
      have hklen : (roundStep eth_price mech sels s i).keepers.length
          = s.keepers.length := by
        unfold roundStep
        rw [if_neg hnetrue]
        cases mech with
        | Traditional => exact length_execTraditional s.keepers _ _
        | KeeperPool => exact length_execKeeperPool s.keepers _ _ _
      have hpred : (!(participatingKeepers keepers0
          ((cdps0.getD i default).liquidation_profit eth_price) mech).isEmpty)
          = true := by rw [heb]; rfl
      rw [hpred]
      simp only [if_true]
      rw [ih (roundStep eth_price mech sels s i) (List.nodup_cons.mp hnd).2 ?_ ?_, hliq]
      · simp only [List.length_cons]
        omega
      · intro j hj
        have hji : j ≠ i := fun h => hirest (h ▸ hj)
        rw [hcdps, getD_updateAt_ne s.cdps i j _ hji]
        exact hcd j (List.mem_cons_of_mem i hj)
      · rw [hklen, hkl]

/- ================== C9 ================== -/

/-- C9: the per-block cap of 10 is applied to the ratio-ascending ranking
before willingness is checked — only the first `min(10, L)` ranked candidates
are considered, a candidate skipped for lack of willing keepers still
consumes its slot, and the number of executed liquidations equals the number
of considered candidates with at least one willing keeper. -/
theorem run_liquidation_round_count (cdps : List CDP) (keepers : List Keeper)
    (eth_price : ℚ) (mechanism : LiquidationMechanism) (sels : ℕ → ℕ) :
    (run_liquidation_round cdps keepers eth_price mechanism sels).liquidations_this_block
      = (((rankedLiquidatable cdps eth_price).take LIQUIDATIONS_PER_BLOCK).filter
          (fun i => !(participatingKeepers keepers
            ((cdps.getD i default).liquidation_profit eth_price)
            mechanism).isEmpty)).length := by
  unfold run_liquidation_round
  rw [roundFold_count eth_price mechanism sels cdps keepers _ _
    ((ranked_nodup cdps eth_price).sublist
      (List.take_sublist LIQUIDATIONS_PER_BLOCK _))
    (fun j _ => rfl) rfl]
  show 0 + _ = _
  omega
